import Mathlib

/-!
Shallow embedding of `fastdns/resolver.py` (class `Resolver`).

Python sets of strings are modelled as duplicate-free insertion lists
(`List String` mutated only through `setAdd`); the host → IP-set cache
(`self.cache`, a `dict`) is modelled as an association list with the
first binding of a key authoritative.  The blocking DNS lookup
(`dns_lookup`) is an external collaborator and enters the model as an
oracle parameter: it receives exactly the arguments the worker passes
(`host, server, timeout, domain`) and returns `none` on failure (python
`None`) or `some ips`.  Threaded draining of the job queue collapses to
sequential processing of the enumerated job list: each worker iteration
performs one lookup and one serialized `_update_cache` merge, so the
final cache is a fold of merges over the jobs in some order; the
enumeration order is used.
-/

namespace Fastdns

/-- `set.add` for python string sets: append iff not already present. -/
def setAdd (s : List String) (x : String) : List String :=
  if x ∈ s then s else s ++ [x]

/-- The `for ip in ips: cache[host].add(ip)` loop: union `ips` into `s`.
(The `if ip is not None` filter is vacuous here: elements are strings.) -/
def setUnion (s : List String) (ips : List String) : List String :=
  ips.foldl setAdd s

/-- `self.cache`: dict from host to set of result strings. -/
abbrev Cache := List (String × List String)

/-- Dict read: first binding wins; `none` = key absent. -/
def cacheGet (c : Cache) (h : String) : Option (List String) :=
  match c with
  | [] => none
  | (k, v) :: rest => if k = h then some v else cacheGet rest h

/-- Dict write `cache[h] = v`: replace the first binding, else append. -/
def cacheSet (c : Cache) (h : String) (v : List String) : Cache :=
  match c with
  | [] => [(h, v)]
  | (k, w) :: rest => if k = h then (k, v) :: rest else (k, w) :: cacheSet rest h v

/-- `Resolver._update_cache(host, ips, lock)`, the body between
`lock.acquire()` and `lock.release()`:

    if ips:
        if host not in self.cache: self.cache[host] = set()
        elif self.cache[host] is None: self.cache[host] = set()
        for ip in ips:
            if ip is not None: self.cache[host].add(ip)
    else:
        if host not in self.cache: self.cache[host] = set()

Cache values in the model are always sets (lists), so the
`is None` re-initialisation branch coincides with keeping the entry. -/
def update_cache (c : Cache) (host : String) (ips : List String) : Cache :=
  if ips ≠ [] then
    let base :=
      match cacheGet c host with
      | none => []
      | some s => s
    cacheSet c host (setUnion base ips)
  else
    match cacheGet c host with
    | none => cacheSet c host []
    | some _ => c

/-- The external `dns_lookup(host, server, timeout=..., domain=...)`:
`none` models python `None` (failure), `some l` a returned set. -/
def Oracle := String → String → Int → String → Option (List String)

/-- One iteration of the worker loop `Resolver._run`:

    host, server = q.get()
    ips = dns_lookup(host, server, domain=self.domain, timeout=self.timeout)
    if ips: self._update_cache(host, ips, lock)
    else:   self._update_cache(host, set(), lock)

`if ips:` is python truthiness: `None` and the empty set both fall to
the `else` branch. -/
def runJob (ora : Oracle) (timeout : Int) (domain : String)
    (c : Cache) (job : String × String) : Cache :=
  match ora job.1 job.2 timeout domain with
  | some ips => if ips ≠ [] then update_cache c job.1 ips else update_cache c job.1 []
  | none => update_cache c job.1 []

/-- The workers jointly drain the queue; serialized merges make the final
cache a fold of `runJob` over the enumerated jobs. -/
def processJobs (ora : Oracle) (timeout : Int) (domain : String)
    (c : Cache) (jobs : List (String × String)) : Cache :=
  jobs.foldl (runJob ora timeout domain) c

/-- The enqueue loops of `Resolver._create_workers`:

    for i in range(self.tries):
        for host in self.hostnames:
            for server in self.nameservers:
                q.put((host, server))
-/
def createJobs (tries : Nat) (hostnames nameservers : List String) :
    List (String × String) :=
  (List.range tries).flatMap fun _ =>
    hostnames.flatMap fun host =>
      nameservers.map fun server => (host, server)

/-- Engine state.  `workers := false` models python `self.workers = None`
(`if not self.workers:`), `true` the flag set by `resolve()`.  `q` holds
the jobs enqueued on the run's queue (`none` = no queue yet).
`dead_hosts` is `none` until `_process_dead_hosts` first assigns it. -/
structure Resolver where
  tries : Nat
  timeout : Int
  hostnames : List String
  domain : String
  nameservers : List String
  cache : Cache
  q : Option (List (String × String))
  workers : Bool
  dead_hosts : Option (List String)

/-- `Resolver.__init__` with no keyword arguments: every `kwargs.get`
falls back to its default. -/
def Resolver.init : Resolver :=
  { tries := 1
    timeout := 5
    hostnames := ["www.google.com", "www.cisco.com"]
    domain := "google.com"
    nameservers := ["8.8.8.8", "8.8.4.4"]
    cache := []
    q := none
    workers := false
    dead_hosts := none }

/-- `Resolver.clear(cache=True)`:

    self.hostnames = []
    if cache: self.cache = dict()
    self.q = None
    self.workers = None
-/
def Resolver.clear (r : Resolver) (cache : Bool) : Resolver :=
  { r with
    hostnames := []
    cache := if cache then [] else r.cache
    q := none
    workers := false }

/-- `Resolver._process_dead_hosts`:
`self.dead_hosts = {h for h, ips in self.cache.items() if not ips}`. -/
def process_dead_hosts (c : Cache) : List String :=
  (c.filter fun p => p.2 = []).map Prod.fst

/-- What one `resolve()` call produced: the new engine state and the
number of worker threads spawned by this call (`0` when the
`if not self.workers:` guard skipped pool creation). -/
structure ResolveResult where
  resolver : Resolver
  numWorkersCreated : Nat

/-- `Resolver.resolve()`:

    lock = Lock(); max_workers = 510
    num_queries = len(self.hostnames) * self.tries * len(self.nameservers)
    if not self.workers:
        q = Queue(maxsize=0)
        if self.hostnames:
            if num_queries > max_workers: self._create_workers(q, lock, max_workers)
            else:                         self._create_workers(q, lock, num_queries)
        else:
            self._create_workers(q, lock, max_workers)
        self.workers = True
        self.q = q
    self.q.join()
    self._process_dead_hosts()
    return self.cache

`q.join()` returns once every enqueued job is `task_done`; in the model
the drain is `processJobs` over the enumeration.  When the guard is
false the queue from the previous run is already drained, so `join()`
returns at once and no lookup happens. -/
def Resolver.resolve (r : Resolver) (ora : Oracle) : ResolveResult :=
  let max_workers : Nat := 510
  let num_queries := r.hostnames.length * r.tries * r.nameservers.length
  if r.workers = false then
    let jobs := createJobs r.tries r.hostnames r.nameservers
    let nw :=
      if r.hostnames ≠ [] then
        if num_queries > max_workers then max_workers else num_queries
      else max_workers
    let c := processJobs ora r.timeout r.domain r.cache jobs
    let r1 := { r with cache := c, workers := true, q := some jobs }
    ⟨{ r1 with dead_hosts := some (process_dead_hosts r1.cache) }, nw⟩
  else
    ⟨{ r with dead_hosts := some (process_dead_hosts r.cache) }, 0⟩

/-- An arbitrary interleaving of serialized `_update_cache` calls, as a
fold: `ops` lists the `(host, ips)` arguments in merge order. -/
def mergeSeq (c : Cache) (ops : List (String × List String)) : Cache :=
  ops.foldl (fun acc op => update_cache acc op.1 op.2) c

end Fastdns

namespace Fastdns

theorem mem_setAdd {s : List String} {y : String} (x : String) (h : y ∈ s) :
    y ∈ setAdd s x := by
  unfold setAdd
  split
  · exact h
  · exact List.mem_append_left _ h

theorem mem_setUnion_left {s : List String} {y : String} (ips : List String)
    (h : y ∈ s) : y ∈ setUnion s ips := by
  induction ips generalizing s with
  | nil => exact h
  | cons a tl ih => exact ih (mem_setAdd a h)

theorem cacheGet_cacheSet_self (c : Cache) (h : String) (v : List String) :
    cacheGet (cacheSet c h v) h = some v := by
  induction c with
  | nil => simp [cacheSet, cacheGet]
  | cons p rest ih =>
    obtain ⟨k, w⟩ := p
    by_cases hk : k = h
    · simp [cacheSet, cacheGet, hk]
    · simp [cacheSet, cacheGet, hk, ih]

theorem cacheGet_cacheSet_ne (c : Cache) {h k : String} (v : List String)
    (hne : k ≠ h) : cacheGet (cacheSet c h v) k = cacheGet c k := by
  induction c with
  | nil =>
    have hh : ¬ h = k := fun hh => hne hh.symm
    simp [cacheSet, cacheGet, hh]
  | cons p rest ih =>
    obtain ⟨k', w⟩ := p
    by_cases hk : k' = h
    · subst hk
      have hkk : ¬ k' = k := fun hh => hne hh.symm
      simp [cacheSet, cacheGet, hkk]
    · simp [cacheSet, cacheGet, hk, ih]

theorem update_cache_mono {c : Cache} (host : String) (ips : List String)
    {k : String} {s : List String} (hget : cacheGet c k = some s) :
    ∃ s', cacheGet (update_cache c host ips) k = some s' ∧ ∀ x ∈ s, x ∈ s' := by
  unfold update_cache
  by_cases hips : ips = []
  · subst hips
    simp only [ne_eq, not_true_eq_false, if_false]
    match hh : cacheGet c host with
    | none =>
      have hk : k ≠ host := fun he => by rw [he, hh] at hget; exact Option.noConfusion hget
      exact ⟨s, by rw [cacheGet_cacheSet_ne c [] hk]; exact hget, fun x hx => hx⟩
    | some t => exact ⟨s, hget, fun x hx => hx⟩
  · simp only [ne_eq, hips, not_false_eq_true, if_true]
    by_cases hk : k = host
    · subst hk
      rw [hget, cacheGet_cacheSet_self]
      exact ⟨setUnion s ips, rfl, fun x hx => mem_setUnion_left ips hx⟩
    · refine ⟨s, ?_, fun x hx => hx⟩
      rw [cacheGet_cacheSet_ne c _ hk]
      exact hget

theorem mergeSeq_mono {c : Cache} (ops : List (String × List String))
    {k : String} {s : List String} (hget : cacheGet c k = some s) :
    ∃ s', cacheGet (mergeSeq c ops) k = some s' ∧ ∀ x ∈ s, x ∈ s' := by
  induction ops generalizing c s with
  | nil => exact ⟨s, hget, fun x hx => hx⟩
  | cons op tl ih =>
    obtain ⟨s₁, h₁, hsub₁⟩ := update_cache_mono op.1 op.2 hget
    obtain ⟨s₂, h₂, hsub₂⟩ := ih h₁
    exact ⟨s₂, h₂, fun x hx => hsub₂ x (hsub₁ x hx)⟩

theorem runJob_mono (ora : Oracle) (timeout : Int) (domain : String)
    {c : Cache} (job : String × String) {k : String} {s : List String}
    (hget : cacheGet c k = some s) :
    ∃ s', cacheGet (runJob ora timeout domain c job) k = some s' ∧
      ∀ x ∈ s, x ∈ s' := by
  unfold runJob
  match ora job.1 job.2 timeout domain with
  | some ips =>
    by_cases hips : ips = [] <;> simp only [hips] <;> split <;>
      exact update_cache_mono _ _ hget
  | none => exact update_cache_mono _ _ hget

theorem processJobs_mono (ora : Oracle) (timeout : Int) (domain : String)
    {c : Cache} (jobs : List (String × String)) {k : String} {s : List String}
    (hget : cacheGet c k = some s) :
    ∃ s', cacheGet (processJobs ora timeout domain c jobs) k = some s' ∧
      ∀ x ∈ s, x ∈ s' := by
  induction jobs generalizing c s with
  | nil => exact ⟨s, hget, fun x hx => hx⟩
  | cons j tl ih =>
    obtain ⟨s₁, h₁, hsub₁⟩ := runJob_mono ora timeout domain j hget
    obtain ⟨s₂, h₂, hsub₂⟩ := ih h₁
    exact ⟨s₂, h₂, fun x hx => hsub₂ x (hsub₁ x hx)⟩

theorem resolve_cache_mono (r : Resolver) (ora : Oracle) {k : String}
    {s : List String} (hget : cacheGet r.cache k = some s) :
    ∃ s', cacheGet (r.resolve ora).resolver.cache k = some s' ∧
      ∀ x ∈ s, x ∈ s' := by
  unfold Resolver.resolve
  by_cases hw : r.workers = false
  · simp only [hw, if_true]
    exact processJobs_mono _ _ _ _ hget
  · simp only [hw, if_false]
    exact ⟨s, hget, fun x hx => hx⟩

/-- C1: cache merging is monotonic.  For any sequence of
`_update_cache` operations, and across any further `resolve()` call on
the same engine (no reset), an existing cache entry keeps all its
elements: the key stays present and its result set only gains. -/
theorem cache_merge_monotonic (c : Cache) (ops : List (String × List String))
    (r : Resolver) (ora : Oracle) (h k : String) (s t : List String)
    (hc : cacheGet c h = some s) (hr : cacheGet r.cache k = some t) :
    (∃ s', cacheGet (mergeSeq c ops) h = some s' ∧ ∀ x ∈ s, x ∈ s') ∧
    (∃ t', cacheGet (r.resolve ora).resolver.cache k = some t' ∧
      ∀ x ∈ t, x ∈ t') :=
  ⟨mergeSeq_mono ops hc, resolve_cache_mono r ora hr⟩

/-- Witness for C1 at a concrete cache, merge sequence and engine. -/
theorem cache_merge_monotonic_witness :
    (∃ s', cacheGet (mergeSeq [("h", ["1.1.1.1"])] [("h", ["2.2.2.2"]), ("g", [])]) "h"
        = some s' ∧ ∀ x ∈ ["1.1.1.1"], x ∈ s') ∧
    (∃ t', cacheGet ((Resolver.resolve
        { Resolver.init with cache := [("h", ["1.1.1.1"])] }
        (fun _ _ _ _ => none)).resolver.cache) "h" = some t' ∧
      ∀ x ∈ ["1.1.1.1"], x ∈ t') :=
  cache_merge_monotonic [("h", ["1.1.1.1"])] [("h", ["2.2.2.2"]), ("g", [])]
    { Resolver.init with cache := [("h", ["1.1.1.1"])] }
    (fun _ _ _ _ => none) "h" "h" ["1.1.1.1"] ["1.1.1.1"] rfl rfl

theorem update_cache_empty_absent {c : Cache} {h : String}
    (hc : cacheGet c h = none) : cacheGet (update_cache c h []) h = some [] := by
  unfold update_cache
  simp only [ne_eq, not_true_eq_false, if_false]
  rw [hc]
  exact cacheGet_cacheSet_self c h []

theorem update_cache_empty_present {c : Cache} {h : String} {s : List String}
    (hc : cacheGet c h = some s) : update_cache c h [] = c := by
  unfold update_cache
  simp only [ne_eq, not_true_eq_false, if_false]
  rw [hc]

theorem update_cache_get_ne {c : Cache} {host k : String} (ips : List String)
    (hne : k ≠ host) : cacheGet (update_cache c host ips) k = cacheGet c k := by
  unfold update_cache
  by_cases hips : ips = []
  · subst hips
    simp only [ne_eq, not_true_eq_false, if_false]
    match cacheGet c host with
    | none => exact cacheGet_cacheSet_ne c [] hne
    | some t => rfl
  · simp only [ne_eq, hips, not_false_eq_true, if_true]
    exact cacheGet_cacheSet_ne c _ hne

theorem runJob_fail_eq {ora : Oracle} {timeout : Int} {domain : String}
    {h : String} (c : Cache) (b : String)
    (hfail : ora h b timeout domain = none ∨ ora h b timeout domain = some []) :
    runJob ora timeout domain c (h, b) = update_cache c h [] := by
  unfold runJob
  rcases hfail with hf | hf <;> rw [hf]
  simp

theorem processJobs_fail_keeps_empty (ora : Oracle) (timeout : Int)
    (domain : String) {h : String} (jobs : List (String × String))
    (hfail : ∀ server, ora h server timeout domain = none ∨
      ora h server timeout domain = some [])
    {c : Cache} (hc : cacheGet c h = some []) :
    cacheGet (processJobs ora timeout domain c jobs) h = some [] := by
  induction jobs generalizing c with
  | nil => exact hc
  | cons j tl ih =>
    obtain ⟨a, b⟩ := j
    by_cases ha : a = h
    · subst ha
      have : runJob ora timeout domain c (a, b) = update_cache c a [] :=
        runJob_fail_eq c b (hfail b)
      rw [processJobs, List.foldl_cons, this, update_cache_empty_present hc]
      exact ih hc
    · have hne : h ≠ a := fun he => ha he.symm
      have hstep : cacheGet (runJob ora timeout domain c (a, b)) h = some [] := by
        unfold runJob
        match ora a b timeout domain with
        | some ips =>
          by_cases hips : ips = [] <;> simp only [hips] <;> split <;>
            rw [update_cache_get_ne _ hne] <;> exact hc
        | none => rw [update_cache_get_ne _ hne]; exact hc
      rw [processJobs, List.foldl_cons]
      exact ih hstep

theorem processJobs_all_fail (ora : Oracle) (timeout : Int) (domain : String)
    {h : String} (jobs : List (String × String)) (b : String)
    (hfail : ∀ server, ora h server timeout domain = none ∨
      ora h server timeout domain = some [])
    {c : Cache}
    (hc : cacheGet c h = none ∨ cacheGet c h = some [])
    (hmem : (h, b) ∈ jobs) :
    cacheGet (processJobs ora timeout domain c jobs) h = some [] := by
  induction jobs generalizing c with
  | nil => exact absurd hmem (List.not_mem_nil _)
  | cons j tl ih =>
    obtain ⟨a, b'⟩ := j
    by_cases ha : a = h
    · subst ha
      have hrun : runJob ora timeout domain c (a, b') = update_cache c a [] :=
        runJob_fail_eq c b' (hfail b')
      have hafter : cacheGet (update_cache c a []) a = some [] := by
        rcases hc with hn | he
        · exact update_cache_empty_absent hn
        · rw [update_cache_empty_present he]; exact he
      rw [processJobs, List.foldl_cons, hrun]
      exact processJobs_fail_keeps_empty ora timeout domain tl hfail hafter
    · have hne : h ≠ a := fun he => ha he.symm
      have hmem' : (h, b) ∈ tl := by
        rcases List.mem_cons.mp hmem with hh | hh
        · exact absurd (congrArg Prod.fst hh).symm ha
        · exact hh
      have hstep : cacheGet (runJob ora timeout domain c (a, b')) h = none ∨
          cacheGet (runJob ora timeout domain c (a, b')) h = some [] := by
        have hpres : cacheGet (runJob ora timeout domain c (a, b')) h =
            cacheGet c h := by
          unfold runJob
          match ora a b' timeout domain with
          | some ips =>
            by_cases hips : ips = [] <;> simp only [hips] <;> split <;>
              exact update_cache_get_ne _ hne
          | none => exact update_cache_get_ne _ hne
        rw [hpres]; exact hc
      rw [processJobs, List.foldl_cons]
      exact ih hstep hmem'

theorem mem_createJobs {tries : Nat} {hostnames nameservers : List String}
    {h s : String} (ht : 0 < tries) (hh : h ∈ hostnames)
    (hs : s ∈ nameservers) : (h, s) ∈ createJobs tries hostnames nameservers := by
  unfold createJobs
  refine List.mem_flatMap.mpr ⟨0, List.mem_range.mpr ht, ?_⟩
  exact List.mem_flatMap.mpr ⟨h, hh, List.mem_map.mpr ⟨s, hs, rfl⟩⟩

/-- C5: the empty-merge contract and its consequence.  Merging `∅` for
an absent target creates an empty-set entry; merging `∅` for a present
target changes nothing (a non-empty entry is never reset).  Hence a
target all of whose lookups fail ends the `resolve()` call mapped to
the empty set — present in the cache, not missing, and `resolve()`
returns normally. -/
theorem empty_merge_contract (r : Resolver) (ora : Oracle) (target : String)
    (hw : r.workers = false)
    (hc : cacheGet r.cache target = none ∨ cacheGet r.cache target = some [])
    (hmem : target ∈ r.hostnames) (hns : r.nameservers ≠ []) (ht : 0 < r.tries)
    (hfail : ∀ server, ora target server r.timeout r.domain = none ∨
      ora target server r.timeout r.domain = some []) :
    (∀ (c : Cache) (h : String), cacheGet c h = none →
      cacheGet (update_cache c h []) h = some []) ∧
    (∀ (c : Cache) (h : String) (s : List String), cacheGet c h = some s →
      update_cache c h [] = c) ∧
    cacheGet (r.resolve ora).resolver.cache target = some [] := by
  refine ⟨fun c h hn => update_cache_empty_absent hn,
    fun c h s hp => update_cache_empty_present hp, ?_⟩
  obtain ⟨srv, hsrv⟩ := List.exists_mem_of_ne_nil r.nameservers hns
  unfold Resolver.resolve
  simp only [hw, if_true]
  exact processJobs_all_fail ora r.timeout r.domain _ srv hfail hc
    (mem_createJobs ht hmem hsrv)

/-- Witness for C5: a fresh engine with one target whose single lookup
fails ends with that target cached to the empty set. -/
theorem empty_merge_contract_witness :
    cacheGet ((Resolver.resolve
      { Resolver.init with hostnames := ["dead"], nameservers := ["9.9.9.9"] }
      (fun _ _ _ _ => none)).resolver.cache) "dead" = some [] :=
  (empty_merge_contract
    { Resolver.init with hostnames := ["dead"], nameservers := ["9.9.9.9"] }
    (fun _ _ _ _ => none) "dead" rfl (Or.inl rfl) (by simp) (by simp)
    (by decide) (fun _ => Or.inl rfl)).2.2

/-- Python dict keys are unique; the assoc-list model keeps them so. -/
def keysNodup (c : Cache) : Prop := (c.map Prod.fst).Nodup

theorem mem_keys_cacheSet {c : Cache} {h x : String} (v : List String)
    (hx : x ∈ (cacheSet c h v).map Prod.fst) :
    x ∈ c.map Prod.fst ∨ x = h := by
  induction c with
  | nil =>
    simp only [cacheSet, List.map_cons, List.map_nil] at hx
    exact Or.inr (List.mem_singleton.mp hx)
  | cons p rest ih =>
    obtain ⟨k, w⟩ := p
    by_cases hk : k = h
    · simp only [cacheSet, hk, if_true, List.map_cons] at hx
      rcases List.mem_cons.mp hx with hx | hx
      · exact Or.inl (by simp [hx, hk])
      · exact Or.inl (List.mem_cons_of_mem _ hx)
    · simp only [cacheSet, hk, if_false, List.map_cons] at hx
      rcases List.mem_cons.mp hx with hx | hx
      · exact Or.inl (by simp [hx])
      · rcases ih hx with hx | hx
        · exact Or.inl (List.mem_cons_of_mem _ hx)
        · exact Or.inr hx

theorem keysNodup_cacheSet {c : Cache} (h : String) (v : List String)
    (hc : keysNodup c) : keysNodup (cacheSet c h v) := by
  induction c with
  | nil => simp [cacheSet, keysNodup]
  | cons p rest ih =>
    obtain ⟨k, w⟩ := p
    rw [keysNodup, List.map_cons, List.nodup_cons] at hc
    by_cases hk : k = h
    · rw [keysNodup]
      simp only [cacheSet, hk, if_true, List.map_cons, List.nodup_cons]
      exact ⟨by rw [← hk]; exact hc.1, hc.2⟩
    · rw [keysNodup]
      simp only [cacheSet, hk, if_false, List.map_cons, List.nodup_cons]
      refine ⟨fun hmem => ?_, ih hc.2⟩
      rcases mem_keys_cacheSet v hmem with hx | hx
      · exact hc.1 hx
      · exact hk hx

theorem keysNodup_update_cache {c : Cache} (host : String) (ips : List String)
    (hc : keysNodup c) : keysNodup (update_cache c host ips) := by
  unfold update_cache
  by_cases hips : ips = []
  · subst hips
    simp only [ne_eq, not_true_eq_false, if_false]
    match cacheGet c host with
    | none => exact keysNodup_cacheSet host [] hc
    | some t => exact hc
  · simp only [ne_eq, hips, not_false_eq_true, if_true]
    exact keysNodup_cacheSet host _ hc

theorem keysNodup_processJobs (ora : Oracle) (timeout : Int) (domain : String)
    (jobs : List (String × String)) {c : Cache} (hc : keysNodup c) :
    keysNodup (processJobs ora timeout domain c jobs) := by
  induction jobs generalizing c with
  | nil => exact hc
  | cons j tl ih =>
    rw [processJobs, List.foldl_cons]
    refine ih ?_
    unfold runJob
    match ora j.1 j.2 timeout domain with
    | some ips =>
      by_cases hips : ips = [] <;> simp only [hips] <;> split <;>
        exact keysNodup_update_cache _ _ hc
    | none => exact keysNodup_update_cache _ _ hc

theorem mem_process_dead_hosts_keys {c : Cache} {h : String}
    (hm : h ∈ process_dead_hosts c) : h ∈ c.map Prod.fst := by
  obtain ⟨p, hp, rfl⟩ := List.mem_map.mp hm
  exact List.mem_map.mpr ⟨p, List.mem_of_mem_filter hp, rfl⟩

theorem mem_process_dead_hosts {c : Cache} (hk : keysNodup c) (h : String) :
    h ∈ process_dead_hosts c ↔ cacheGet c h = some [] := by
  induction c with
  | nil => simp [process_dead_hosts, cacheGet]
  | cons p rest ih =>
    obtain ⟨k, v⟩ := p
    rw [keysNodup, List.map_cons, List.nodup_cons] at hk
    by_cases hkh : k = h
    · subst hkh
      by_cases hv : v = []
      · subst hv
        constructor
        · intro _
          simp [cacheGet]
        · intro _
          simp [process_dead_hosts]
      · constructor
        · intro hmem
          have : decide (v = []) = false := decide_eq_false hv
          simp only [process_dead_hosts, List.filter_cons, this] at hmem
          exact absurd (mem_process_dead_hosts_keys hmem) hk.1
        · intro hget
          simp only [cacheGet, if_true] at hget
          exact absurd (Option.some.inj hget) hv
    · have hgr : cacheGet ((k, v) :: rest) h = cacheGet rest h := by
        simp [cacheGet, hkh]
      have hhk : ¬ h = k := fun he => hkh he.symm
      rw [hgr, ← ih hk.2]
      by_cases hv : v = []
      · simp [process_dead_hosts, List.filter_cons, hv, hhk]
      · simp [process_dead_hosts, List.filter_cons, hv]

/-- C6: after every `resolve()` call, `dead_hosts` is recomputed as
exactly the cache keys mapped to an empty set: membership in it is
equivalent to the cache holding `some ∅` for that key. -/
theorem dead_hosts_exact (r : Resolver) (ora : Oracle)
    (hk : keysNodup r.cache) :
    (r.resolve ora).resolver.dead_hosts =
      some (process_dead_hosts (r.resolve ora).resolver.cache) ∧
    ∀ h, h ∈ process_dead_hosts (r.resolve ora).resolver.cache ↔
      cacheGet (r.resolve ora).resolver.cache h = some [] := by
  have hk' : keysNodup (r.resolve ora).resolver.cache := by
    unfold Resolver.resolve
    by_cases hw : r.workers = false
    · simp only [hw, if_true]
      exact keysNodup_processJobs _ _ _ _ hk
    · simp only [hw, if_false]
      exact hk
  constructor
  · unfold Resolver.resolve
    by_cases hw : r.workers = false
    · simp [hw]
    · simp [hw]
  · exact fun h => mem_process_dead_hosts hk' h

/-- Witness for C6 on a default-constructed engine with an all-failing
lookup oracle. -/
theorem dead_hosts_exact_witness :
    (Resolver.resolve Resolver.init (fun _ _ _ _ => none)).resolver.dead_hosts =
      some (process_dead_hosts
        (Resolver.resolve Resolver.init (fun _ _ _ _ => none)).resolver.cache) ∧
    ("www.google.com" ∈ process_dead_hosts
        (Resolver.resolve Resolver.init (fun _ _ _ _ => none)).resolver.cache ↔
      cacheGet (Resolver.resolve Resolver.init
        (fun _ _ _ _ => none)).resolver.cache "www.google.com" = some []) :=
  ⟨(dead_hosts_exact Resolver.init (fun _ _ _ _ => none) List.nodup_nil).1,
    (dead_hosts_exact Resolver.init (fun _ _ _ _ => none) List.nodup_nil).2
      "www.google.com"⟩

/-- C9: `clear(cache=True)` empties the target list, the queue and
worker handles, and the cache; a `resolve()` after reconfiguring then
rebuilds the cache from scratch — it processes the freshly enumerated
jobs starting from the empty cache. -/
theorem clear_resets (r : Resolver) (hs ns : List String) (tr : Nat)
    (ora : Oracle) :
    (r.clear true).cache = [] ∧
    (r.clear true).hostnames = [] ∧
    (r.clear true).q = none ∧
    (r.clear true).workers = false ∧
    (Resolver.resolve
        { r.clear true with hostnames := hs, nameservers := ns, tries := tr }
        ora).resolver.cache
      = processJobs ora r.timeout r.domain [] (createJobs tr hs ns) := by
  refine ⟨rfl, rfl, rfl, rfl, ?_⟩
  rfl

/-- C8: with an empty target set and an empty cache, `resolve()`
terminates with an empty cache and an empty dead-host set, while the
worker pool is still started at the 510-thread cap. -/
theorem empty_targets_run (r : Resolver) (ora : Oracle)
    (hh : r.hostnames = []) (hc : r.cache = []) (hw : r.workers = false) :
    (r.resolve ora).resolver.cache = [] ∧
    (r.resolve ora).numWorkersCreated = 510 ∧
    (r.resolve ora).resolver.dead_hosts = some [] := by
  have hfm : ((List.range r.tries).flatMap fun _ => ([] : List (String × String))) = [] := by
    induction List.range r.tries with
    | nil => rfl
    | cons a tl ih => simp [ih]
  unfold Resolver.resolve
  simp [hw, hh, hc, createJobs, processJobs, process_dead_hosts, hfm]

/-- Witness for C8: an engine with no targets. -/
theorem empty_targets_run_witness :
    (Resolver.resolve { Resolver.init with hostnames := [] }
        (fun _ _ _ _ => none)).resolver.cache = [] ∧
    (Resolver.resolve { Resolver.init with hostnames := [] }
        (fun _ _ _ _ => none)).numWorkersCreated = 510 ∧
    (Resolver.resolve { Resolver.init with hostnames := [] }
        (fun _ _ _ _ => none)).resolver.dead_hosts = some [] :=
  empty_targets_run { Resolver.init with hostnames := [] }
    (fun _ _ _ _ => none) rfl rfl rfl

/-- The all-failing lookup oracle (every `dns_lookup` returns `None`). -/
def oraNone : Oracle := fun _ _ _ _ => none

/-- An engine configured with one target and an empty nameserver list. -/
def noNameserversEngine : Resolver :=
  { Resolver.init with hostnames := ["www.google.com"], nameservers := [] }

theorem flatMap_const_nil {α β : Type} (l : List α) :
    (l.flatMap fun _ => ([] : List β)) = [] := by
  induction l with
  | nil => rfl
  | cons a tl ih => rw [List.flatMap_cons, ih]; rfl

theorem createJobs_nil_nameservers (tries : Nat) (hostnames : List String) :
    createJobs tries hostnames [] = [] := by
  unfold createJobs
  simp only [List.map_nil, flatMap_const_nil]

/-- Counterexample to C7: a non-empty target set with an empty
nameserver list is not rejected — `resolve()` completes and returns the
cache unchanged (still empty), silently. -/
theorem no_validation_counterexample :
    noNameserversEngine.hostnames ≠ [] ∧
    noNameserversEngine.nameservers = [] ∧
    (noNameserversEngine.resolve oraNone).resolver.cache
      = noNameserversEngine.cache := by
  exact ⟨by simp [noNameserversEngine, Resolver.init], rfl, rfl⟩

/-- C7 amended: the engine performs no configuration validation.  With
an empty nameserver list, `resolve()` enumerates zero jobs and returns
the cache unchanged, whatever the targets; the timeout is handed to the
lookup primitive unchecked. -/
theorem no_validation_silent (r : Resolver) (ora : Oracle)
    (hns : r.nameservers = []) :
    (r.resolve ora).resolver.cache = r.cache := by
  unfold Resolver.resolve
  by_cases hw : r.workers = false
  · simp only [hw, if_true]
    rw [hns, createJobs_nil_nameservers]
    rfl
  · simp [hw]

/-- Witness for the amended C7. -/
theorem no_validation_silent_witness :
    (noNameserversEngine.resolve oraNone).resolver.cache
      = noNameserversEngine.cache :=
  no_validation_silent noNameserversEngine oraNone rfl

/-- An engine whose target list is empty. -/
def noTargetsEngine : Resolver := { Resolver.init with hostnames := [] }

/-- Counterexample to C4: with an empty target list the run starts 510
workers although the total job count — hence `min(jobs, 510)` — is 0. -/
theorem pool_size_counterexample :
    (noTargetsEngine.resolve oraNone).numWorkersCreated = 510 ∧
    min (noTargetsEngine.hostnames.length * noTargetsEngine.tries *
      noTargetsEngine.nameservers.length) 510 = 0 := by
  exact ⟨rfl, rfl⟩

/-- C4 amended: a run started by `resolve()` spawns
`min(|hostnames| * tries * |nameservers|, 510)` workers when the target
list is non-empty, and 510 workers when it is empty. -/
theorem pool_size_policy (r : Resolver) (ora : Oracle)
    (hw : r.workers = false) :
    (r.resolve ora).numWorkersCreated =
      if r.hostnames = [] then 510
      else min (r.hostnames.length * r.tries * r.nameservers.length) 510 := by
  unfold Resolver.resolve
  simp only [hw, if_true]
  by_cases hh : r.hostnames = []
  · simp [hh]
  · simp only [hh, ne_eq, not_false_eq_true, if_true, if_false]
    by_cases hq : r.hostnames.length * r.tries * r.nameservers.length > 510
    · rw [if_pos hq, Nat.min_eq_right (Nat.le_of_lt hq)]
    · rw [if_neg hq, Nat.min_eq_left (Nat.le_of_not_lt hq)]

/-- Witness for the amended C4 on the default engine (4 jobs, below the
cap). -/
theorem pool_size_policy_witness :
    (Resolver.init.resolve oraNone).numWorkersCreated =
      if Resolver.init.hostnames = [] then 510
      else min (Resolver.init.hostnames.length * Resolver.init.tries *
        Resolver.init.nameservers.length) 510 :=
  pool_size_policy Resolver.init oraNone rfl

/-- An engine with one target and one nameserver. -/
def oneJobEngine : Resolver :=
  { Resolver.init with hostnames := ["h"], nameservers := ["s"] }

/-- An oracle resolving everything to 1.1.1.1. -/
def oraA : Oracle := fun _ _ _ _ => some ["1.1.1.1"]

/-- An oracle resolving everything to 2.2.2.2. -/
def oraB : Oracle := fun _ _ _ _ => some ["2.2.2.2"]

/-- Counterexample to C2: on the second `resolve()` the lookup would
return `2.2.2.2`, yet the cache keeps exactly the first call's result —
no job is re-enumerated, no fresh result is merged. -/
theorem second_resolve_counterexample :
    oraB "h" "s" oneJobEngine.timeout oneJobEngine.domain = some ["2.2.2.2"] ∧
    cacheGet ((Resolver.resolve (oneJobEngine.resolve oraA).resolver
        oraB).resolver.cache) "h" = some ["1.1.1.1"] ∧
    "2.2.2.2" ∉ (["1.1.1.1"] : List String) := by
  refine ⟨rfl, ?_, by decide⟩
  rfl

/-- C2 amended: a second `resolve()` without `clear()` is a no-op run:
the workers-already-started flag short-circuits pool creation and job
enumeration, the already-drained queue is joined immediately, and the
call returns the existing cache unchanged (recomputing only the
dead-host snapshot). -/
theorem second_resolve_noop (r : Resolver) (ora : Oracle)
    (hw : r.workers = true) :
    (r.resolve ora).resolver.cache = r.cache ∧
    (r.resolve ora).numWorkersCreated = 0 ∧
    (r.resolve ora).resolver.q = r.q ∧
    (r.resolve ora).resolver.dead_hosts = some (process_dead_hosts r.cache) := by
  unfold Resolver.resolve
  simp [hw]

/-- Witness for the amended C2. -/
theorem second_resolve_noop_witness :
    (Resolver.resolve { Resolver.init with workers := true }
        oraNone).resolver.cache
      = ({ Resolver.init with workers := true } : Resolver).cache ∧
    (Resolver.resolve { Resolver.init with workers := true }
        oraNone).numWorkersCreated = 0 ∧
    (Resolver.resolve { Resolver.init with workers := true }
        oraNone).resolver.q
      = ({ Resolver.init with workers := true } : Resolver).q ∧
    (Resolver.resolve { Resolver.init with workers := true }
        oraNone).resolver.dead_hosts
      = some (process_dead_hosts
          ({ Resolver.init with workers := true } : Resolver).cache) :=
  second_resolve_noop { Resolver.init with workers := true } oraNone rfl

/-- Occurrence count of `x` in `l`. -/
def countElem {α : Type} [DecidableEq α] : List α → α → Nat
  | [], _ => 0
  | y :: tl, x => countElem tl x + if y = x then 1 else 0

theorem countElem_eq_zero {α : Type} [DecidableEq α] {l : List α} {x : α}
    (hx : x ∉ l) : countElem l x = 0 := by
  induction l with
  | nil => rfl
  | cons y tl ih =>
    have hyx : ¬ y = x := fun he => hx (he ▸ List.mem_cons_self y tl)
    simp [countElem, hyx, ih (fun hm => hx (List.mem_cons_of_mem y hm))]

theorem countElem_eq_one {α : Type} [DecidableEq α] {l : List α} {x : α}
    (d : l.Nodup) (hx : x ∈ l) : countElem l x = 1 := by
  induction l with
  | nil => exact absurd hx (List.not_mem_nil x)
  | cons y tl ih =>
    rw [List.nodup_cons] at d
    rcases List.mem_cons.mp hx with rfl | hm
    · simp [countElem, countElem_eq_zero d.1]
    · have hyx : ¬ y = x := fun he => d.1 (he ▸ hm)
      simp [countElem, hyx, ih d.2 hm]

theorem countElem_append {α : Type} [DecidableEq α] (l₁ l₂ : List α) (x : α) :
    countElem (l₁ ++ l₂) x = countElem l₁ x + countElem l₂ x := by
  induction l₁ with
  | nil => simp [countElem]
  | cons y tl ih =>
    rw [List.cons_append]
    simp only [countElem, ih]
    omega

theorem countElem_flatMap_const {α β : Type} [DecidableEq β]
    (l : List α) (p : List β) (x : β) :
    countElem (l.flatMap fun _ => p) x = l.length * countElem p x := by
  induction l with
  | nil => simp [countElem]
  | cons y tl ih =>
    rw [List.flatMap_cons, countElem_append, ih, List.length_cons]
    ring

theorem countElem_map_pair (a : String) (ns : List String) (h s : String) :
    countElem (ns.map fun b => (a, b)) (h, s)
      = if a = h then countElem ns s else 0 := by
  induction ns with
  | nil => simp [countElem]
  | cons b tl ih =>
    by_cases ha : a = h
    · subst ha
      simp only [List.map_cons, countElem, ih, if_true, Prod.mk.injEq, true_and]
    · simp only [List.map_cons, countElem, ih, ha, if_false, Prod.mk.injEq,
        false_and, add_zero]

theorem countElem_pairs (hostnames ns : List String) (h s : String) :
    countElem (hostnames.flatMap fun a => ns.map fun b => (a, b)) (h, s)
      = countElem hostnames h * countElem ns s := by
  induction hostnames with
  | nil => simp [countElem]
  | cons a tl ih =>
    rw [List.flatMap_cons, countElem_append, ih, countElem_map_pair]
    simp only [countElem]
    by_cases ha : a = h <;> simp only [ha, if_true, if_false] <;> ring

theorem length_flatMap_const {α β : Type} (l : List α) (p : List β) :
    (l.flatMap fun _ => p).length = l.length * p.length := by
  induction l with
  | nil => simp
  | cons y tl ih =>
    rw [List.flatMap_cons, List.length_append, ih, List.length_cons]
    ring

theorem length_pairs (hostnames ns : List String) :
    (hostnames.flatMap fun a => ns.map fun b => (a, b)).length
      = hostnames.length * ns.length := by
  induction hostnames with
  | nil => simp
  | cons a tl ih =>
    rw [List.flatMap_cons, List.length_append, ih, List.length_map,
      List.length_cons]
    ring

/-- C3: job enumeration is complete.  The enumerated job list has
exactly `|targets| * |nameservers| * tries` elements, and — targets and
nameservers being duplicate-free, as the configuration treats them as a
set — every configured `(target, nameserver)` pair occurs exactly
`tries` times. -/
theorem job_enumeration (tries : Nat) (hostnames nameservers : List String)
    (host server : String) (hnd1 : hostnames.Nodup)
    (hnd2 : nameservers.Nodup) (hh : host ∈ hostnames)
    (hs : server ∈ nameservers) :
    (createJobs tries hostnames nameservers).length
      = hostnames.length * nameservers.length * tries ∧
    countElem (createJobs tries hostnames nameservers) (host, server)
      = tries := by
  constructor
  · unfold createJobs
    rw [length_flatMap_const, length_pairs, List.length_range]
    ring
  · unfold createJobs
    rw [countElem_flatMap_const, countElem_pairs, countElem_eq_one hnd1 hh,
      countElem_eq_one hnd2 hs, List.length_range]
    ring

/-- Witness for C3: 2 targets, 1 nameserver, 3 tries give 6 jobs and 3
occurrences of the pair. -/
theorem job_enumeration_witness :
    (createJobs 3 ["a", "b"] ["x"]).length = 2 * 1 * 3 ∧
    countElem (createJobs 3 ["a", "b"] ["x"]) ("a", "x") = 3 :=
  job_enumeration 3 ["a", "b"] ["x"] "a" "x" (by decide) (by decide)
    (by decide) (by decide)

/-- C10: a `Resolver` constructed with no arguments carries the
documented defaults: `tries = 1`, `timeout = 5`,
`hostnames = ['www.google.com', 'www.cisco.com']`,
`domain = 'google.com'`, `nameservers = ['8.8.8.8', '8.8.4.4']`,
an empty cache, and no queue or worker pool yet. -/
theorem default_construction :
    Resolver.init.tries = 1 ∧
    Resolver.init.timeout = 5 ∧
    Resolver.init.hostnames = ["www.google.com", "www.cisco.com"] ∧
    Resolver.init.domain = "google.com" ∧
    Resolver.init.nameservers = ["8.8.8.8", "8.8.4.4"] ∧
    Resolver.init.cache = [] ∧
    Resolver.init.q = none ∧
    Resolver.init.workers = false := by
  refine ⟨rfl, rfl, rfl, rfl, rfl, rfl, rfl, rfl⟩

end Fastdns
